import Mathlib

set_option maxRecDepth 4096

/-!
Shallow embedding of the `confy` package: a drop-in replacement for Go's
`flag.Parse()` that synchronizes the process flag registry with a persistent
configuration file.  Strings are modelled at the character (rune) level, which
agrees with Go's byte-level slicing here because every separator and marker
character involved (`=`, `:`, `#`, `\n`, `\r`) is ASCII, so byte indices
returned by `strings.IndexAny` always fall on rune boundaries.
-/

namespace Confy

/-- Character class used by `strings.TrimSpace` (Unicode white space). -/
def isSpace (c : Char) : Bool := c.isWhitespace

/-- Embedding of `strings.TrimSpace`: drop white space from both ends. -/
def trimChars (cs : List Char) : List Char :=
  ((cs.dropWhile isSpace).reverse.dropWhile isSpace).reverse

/-- String-level wrapper of `trimChars`. -/
def trimS (s : String) : String := ⟨trimChars s.data⟩

/-- Separator class of `strings.IndexAny(line, "=:")`. -/
def isSep (c : Char) : Bool := c == '=' || c == ':'

/-- Embedding of `strings.IndexAny(line, "=:")`: index of the first `=` or `:`,
`none` when absent. -/
def sepIdx : List Char → Option Nat
  | [] => none
  | c :: rest => if isSep c then some 0 else (sepIdx rest).map (· + 1)

/-- Embedding of `strings.HasPrefix(line, "#")`: the first character is `#`. -/
def startsHash (l : List Char) : Bool := l.head? == some '#'

/-- Part of `bufio.ScanLines`: strip one trailing carriage return from a line. -/
def dropCR (cs : List Char) : List Char :=
  if cs.getLast? = some '\r' then cs.dropLast else cs

/-- Split a character stream at every newline; always returns at least one
(possibly empty) piece, the piece after the last newline included. -/
def splitNL : List Char → List (List Char)
  | [] => [[]]
  | c :: rest =>
    if c = '\n' then [] :: splitNL rest
    else
      match splitNL rest with
      | [] => [[c]]
      | p :: ps => (c :: p) :: ps

/-- Embedding of reading a stream with `bufio.Scanner` under `ScanLines`: the
tokens are the newline-separated pieces, the final piece is dropped when empty
(a trailing newline produces no extra empty line), and each token has a
trailing `\r` stripped. -/
def scanLines (cs : List Char) : List (List Char) :=
  let ps := splitNL cs
  (if ps.getLast? = some [] then ps.dropLast else ps).map dropCR

/-- Lines of a file's bytes, as seen by `parseConfig`'s scanner. -/
def splitLines (s : String) : List String :=
  (scanLines s.data).map (fun l => ⟨l⟩)

/-- Join lines back into file bytes; every emission in `saveConfig` and the
header ends with `\n`, so the generated file is `unlines` of its lines. -/
def unlines : List String → String
  | [] => ""
  | l :: ls => l ++ "\n" ++ unlines ls

/-- Modelled from the spec: an entry of the external option registry
(`flag.Flag`), with a `name`, a handle `valueId` identifying the shared
underlying mutable value, the `usage` text and the default-value text.
Several entries may carry the same `valueId` (aliases). -/
structure Flagg where
  name : String
  valueId : Nat
  usage : String
  defValue : String
deriving DecidableEq, Repr

/-- Modelled from the spec: the external option registry (Go's global `flag`
package state).  `flags` lists the registered options in the registry's
natural enumeration order; `coerceOf i` is the string-coercion contract of the
underlying value `i` (returning the stored string form, or `none` when
validation fails); `valOf i` is the current string form of value `i`;
`parsed` is the one-shot finalization flag set by the command-line parse. -/
structure Registry where
  flags : List Flagg
  coerceOf : Nat → String → Option String
  valOf : Nat → String
  parsed : Bool

/-- Name lookup inside the registry, first match wins. -/
def lookupFlag (flags : List Flagg) (name : String) : Option Flagg :=
  flags.find? (fun f => f.name == name)

/-- Modelled from the spec: `flag.Set(key, val)` of the external registry —
fails on an unknown key or when the value's own validation rejects `val`;
on success the underlying value's string form is updated. -/
def flagSet (reg : Registry) (key val : String) : Option Registry :=
  match lookupFlag reg.flags key with
  | none => none
  | some f =>
    match reg.coerceOf f.valueId val with
    | none => none
    | some s =>
      some { reg with valOf := fun j => if j = f.valueId then s else reg.valOf j }

/-- Insertion into the obsolete-key map (`obsKeys[key] = val` on a Go map):
an existing entry with the same key is overwritten in place, a new key is
appended.  Go map iteration order is unspecified; the model keeps insertion
order. -/
def obsInsert (m : List (String × String)) (k v : String) : List (String × String) :=
  if m.any (fun p => p.1 == k) then m.map (fun p => if p.1 == k then (k, v) else p)
  else m ++ [(k, v)]

/-- Embedding of the body of `parseConfig`'s scanner loop for one line:
trim, skip comments and blanks, split at the first `=` or `:` (silently
skipping a line with neither), trim key and value, and attempt `flag.Set`,
recording the pair as obsolete on failure. -/
def processLine (st : Registry × List (String × String)) (raw : String) :
    Registry × List (String × String) :=
  let cs := trimChars raw.data
  if startsHash cs || cs.isEmpty then st
  else
    match sepIdx cs with
    | none => st
    | some i =>
      let key : String := ⟨trimChars (cs.take i)⟩
      let val : String := ⟨trimChars (cs.drop (i + 1))⟩
      match flagSet st.1 key val with
      | some reg' => (reg', st.2)
      | none => (st.1, obsInsert st.2 key val)

/-- Embedding of `parseConfig`: fold the per-line step over the file's lines,
starting from a fresh (empty) obsolete map, returning the updated registry and
the obsolete map. -/
def parseConfig (reg : Registry) (ls : List String) :
    Registry × List (String × String) :=
  ls.foldl processLine (reg, [])

/-- Lookup of the dedup map entry for an underlying-value identity. -/
def matchEntry (m : List (Nat × Flagg)) (i : Nat) : Option (Nat × Flagg) :=
  m.find? (fun p => p.1 == i)

/-- One step of `saveConfig`'s first `flag.VisitAll` pass: keep, per underlying
value, the visited flag with the strictly largest `utf8.RuneCountInString`
(character count) of its name; on a tie the earlier flag is kept. -/
def dedupStep (m : List (Nat × Flagg)) (f : Flagg) : List (Nat × Flagg) :=
  match matchEntry m f.valueId with
  | none => m ++ [(f.valueId, f)]
  | some (_, cur) =>
    if f.name.length > cur.name.length then
      m.map (fun p => if p.1 == f.valueId then (f.valueId, f) else p)
    else m

/-- The `deduped` map of `saveConfig` after the first `flag.VisitAll` pass. -/
def dedupMap (flags : List Flagg) : List (Nat × Flagg) :=
  flags.foldl dedupStep []

/-- Guard of `saveConfig`'s second pass: a flag is emitted exactly when the
dedup map's entry for its underlying value carries its own name. -/
def isCanonical (flags : List Flagg) (f : Flagg) : Bool :=
  match matchEntry (dedupMap flags) f.valueId with
  | some (_, cur) => cur.name == f.name
  | none => false

/-- Embedding of `strings.Replace(usage, "\n    \t", "\n# ", -1)`: rewrite
every newline + four spaces + tab (the `flag` package's usage continuation
indent) into a newline starting a `# ` comment continuation. -/
def rewriteUsage : List Char → List Char
  | '\n' :: ' ' :: ' ' :: ' ' :: ' ' :: '\t' :: rest => '\n' :: '#' :: ' ' :: rewriteUsage rest
  | c :: rest => c :: rewriteUsage rest
  | [] => []

/-- Modelled from the spec: `flag.UnquoteUsage` belongs to the external flag
package; for usage strings without a backquoted name it returns the usage text
unchanged, which is the case the repository's own rendering depends on. -/
def unquotedUsage (f : Flagg) : String := f.usage

/-- The single comment line `# <usage> (default <def>)` that `saveConfig`
emits for a canonical flag (embedded continuation breaks already rewritten). -/
def usageLine (f : Flagg) : String :=
  "# " ++ ⟨rewriteUsage (unquotedUsage f).data⟩ ++ " (default " ++ f.defValue ++ ")"

/-- The assignment line `name=value` emitted for a canonical flag. -/
def assignLine (reg : Registry) (f : Flagg) : String :=
  f.name ++ "=" ++ reg.valOf f.valueId

/-- The block `saveConfig` emits for one canonical flag: a blank line, the
usage/default comment line, then the assignment line (the source's
`"\n# %s (default %v)\n"` followed by `"%s=%v\n"`). -/
def blockLines (reg : Registry) (f : Flagg) : List String :=
  ["", usageLine f, assignLine reg f]

/-- Lines of `saveConfig`'s second `flag.VisitAll` pass: each flag in registry
order contributes its block exactly when it is canonical. -/
def flagLines (reg : Registry) : List String :=
  reg.flags.foldr
    (fun f acc => (if isCanonical reg.flags f then blockLines reg f else []) ++ acc) []

/-- The trailing deprecated section: `fmt.Fprintln(w, "\n\n# The following…")`
contributes two blank lines and the comment, then one `key=value` line per
obsolete entry; nothing is emitted when the obsolete map is empty. -/
def obsLines (obs : List (String × String)) : List String :=
  if obs.isEmpty then []
  else ["", "", "# The following options are probably deprecated and not used currently!"]
        ++ obs.map (fun p => p.1 ++ "=" ++ p.2)

/-- Lines of the `configHeader` preamble written by `Parse` before
`saveConfig` runs. -/
def headerLines (app : String) : List String :=
  ["# " ++ app ++ " configuration",
   "# ",
   "# Empty lines or lines starting with # will be ignored.",
   "# All other lines must look like \"KEY=VALUE\" (without the quotes).",
   "# The VALUE must not be enclosed in quotes as well!"]

/-- Full regenerated file, as lines: header, per-canonical-flag blocks, then
the optional deprecated section. -/
def renderLines (app : String) (reg : Registry) (obs : List (String × String)) :
    List String :=
  headerLines app ++ flagLines reg ++ obsLines obs

/-- Error kinds `Parse` can return (the spec's taxonomy §7): the one-shot
guard violation, a config-path resolution failure, an I/O failure at a named
stage, and a failing final command-line parse. -/
inductive ConfyError where
  | alreadyFinalized
  | envResolution
  | ioFail (stage : String)
  | argParse
deriving DecidableEq, Repr

/-- Modelled from the spec: `path.Join(home, name)` of the external `path`
package, for the already-clean inputs this repository passes it. -/
def joinPath (a b : String) : String :=
  if a = "" then b else a ++ "/" ++ b

/-- Modelled from the spec: `strings.ToUpper` of the external standard
library for one character, on the ASCII application names this repository
targets. -/
def upperChar (c : Char) : Char :=
  if 'a' ≤ c ∧ c ≤ 'z' then Char.ofNat (c.toNat - 32) else c

/-- Modelled from the spec: `strings.ToUpper` of the external standard
library (ASCII range). -/
def upperS (s : String) : String := ⟨s.data.map upperChar⟩

/-- Modelled from the spec: `strings.ToLower` of the external standard
library for one character (ASCII range). -/
def lowerChar (c : Char) : Char :=
  if 'A' ≤ c ∧ c ≤ 'Z' then Char.ofNat (c.toNat + 32) else c

/-- Modelled from the spec: `strings.ToLower` of the external standard
library (ASCII range). -/
def lowerS (s : String) : String := ⟨s.data.map lowerChar⟩

/-- Embedding of `getConfigPath`: the environment variable
`UPPER(appName) ++ "INF0"` wins when set and non-empty; otherwise the current
user's home joined with `"." ++ lower(appName) ++ "inf0"`; an error when the
variable is unset/empty and the user lookup failed.  `env` has `os.Getenv`
semantics (empty string for an unset variable), `userHome` is `none` exactly
when `user.Current()` fails. -/
def getConfigPath (appName : String) (env : String → String)
    (userHome : Option String) : Except ConfyError String :=
  let envname := upperS appName ++ "INF0"
  let cPath := env envname
  if cPath = "" then
    match userHome with
    | none => .error .envResolution
    | some home => .ok (joinPath home ("." ++ lowerS appName ++ "inf0"))
  else .ok cPath

/-- Modelled from the spec: the external world `Parse` interacts with — the
environment, the user lookup, the config file's current bytes (`""` both for
an empty and for an absent file, since `openOrCreate` creates it), fault
switches for each file operation, and the command-line arguments as the
`name, value` pairs the external argument parser would apply in order. -/
structure World where
  env : String → String
  userHome : Option String
  file : String
  openFails : Bool
  seekFails : Bool
  truncateFails : Bool
  writeFails : Bool
  args : List (String × String)

/-- Modelled from the spec: `flag.Parse()` of the external command-line
parser — marks the registry finalized, then applies each argument pair in
order through the same set contract; `none` models the parser aborting on a
bad argument. -/
def flagParse (reg : Registry) (args : List (String × String)) : Option Registry :=
  args.foldl (fun o kv => o.bind (fun r => flagSet r kv.1 kv.2))
    (some { reg with parsed := true })

/-- Outcome of one `Parse` call: the registry afterwards, the config file's
bytes afterwards, the returned error (`none` on success), the config path
named in the update warning when one was printed, and whether the file was
rewritten. -/
structure PState where
  reg : Registry
  file : String
  err : Option ConfyError
  warned : Option String
  wrote : Bool

/-- Tail of `Parse` shared by the no-write and the successful-write paths:
run the final `flag.Parse()` over the synchronized registry. -/
def finishParse (reg1 : Registry) (w : World) (fileNow : String)
    (warned : Option String) (wrote : Bool) : PState :=
  match flagParse reg1 w.args with
  | some reg2 => ⟨reg2, fileNow, none, warned, wrote⟩
  | none => ⟨{ reg1 with parsed := true }, fileNow, some .argParse, warned, wrote⟩

/-- Embedding of `Parse(appName)`: the one-shot guard, path resolution, open,
parse of the old bytes, the warning on obsolete keys, regeneration, the
write-only-if-changed decision with the seek/truncate/write sequence, then the
final command-line parse. -/
def Parse (appName : String) (w : World) (reg : Registry) : PState :=
  if reg.parsed then ⟨reg, w.file, some .alreadyFinalized, none, false⟩
  else
    match getConfigPath appName w.env w.userHome with
    | .error e => ⟨reg, w.file, some e, none, false⟩
    | .ok cPath =>
      if w.openFails then ⟨reg, w.file, some (.ioFail "open"), none, false⟩
      else
        let oldConf := w.file
        let pr := parseConfig reg (splitLines oldConf)
        let warned := if pr.2.isEmpty then none else some cPath
        let newConf := unlines (renderLines appName pr.1 pr.2)
        if oldConf = newConf then finishParse pr.1 w oldConf warned false
        else if w.seekFails then ⟨pr.1, w.file, some (.ioFail "seek"), warned, false⟩
        else if w.truncateFails then ⟨pr.1, w.file, some (.ioFail "truncate"), warned, false⟩
        else if w.writeFails then ⟨pr.1, "", some (.ioFail "write"), warned, false⟩
        else finishParse pr.1 w newConf warned true

/-! Side-condition predicates: keys and values that survive the write/parse
round trip unchanged (no surrounding white space, no separator inside a key,
no newline, not a comment marker). -/

/-- Boolean check that an optional edge character is not white space. -/
def edgeOk : Option Char → Bool
  | some c => !isSpace c
  | none => true

/-- Both ends of a character list are free of white space. -/
def nonSpaceEdges (l : List Char) : Bool := edgeOk l.head? && edgeOk l.getLast?

/-- No newline and no carriage return anywhere in the string. -/
def noLF (s : String) : Bool := !s.data.elem '\n' && !s.data.elem '\r'

/-- A key that the parser reads back verbatim from `key=value`: non-empty,
trim-stable, free of separators and line breaks, and not starting a comment. -/
def cleanKey (s : String) : Bool :=
  !s.data.isEmpty && nonSpaceEdges s.data && s.data.all (fun c => !isSep c)
    && s.data.head? != some '#' && noLF s

/-- A value that the parser reads back verbatim: trim-stable and free of line
breaks (separators inside the value are harmless — only the first one in the
whole line splits). -/
def cleanVal (s : String) : Bool := nonSpaceEdges s.data && noLF s

/-- Well-formedness of one registered flag relative to its registry: a clean
name, a trim-stable, line-break-free current value, a line-break-free
usage/default comment line, a value whose string form re-coerces to itself,
and a name that looks itself up (names are effectively unambiguous). -/
def wfFlag (reg : Registry) (f : Flagg) : Prop :=
  cleanKey f.name = true ∧ cleanVal (reg.valOf f.valueId) = true
    ∧ noLF (usageLine f) = true
    ∧ reg.coerceOf f.valueId (reg.valOf f.valueId) = some (reg.valOf f.valueId)
    ∧ lookupFlag reg.flags f.name = some f

/-- Well-formedness of the registry for an application name: the name has no
line break and every registered flag is well formed. -/
def wfRegistry (app : String) (reg : Registry) : Prop :=
  noLF app = true ∧ ∀ f ∈ reg.flags, wfFlag reg f

instance (reg : Registry) (f : Flagg) : Decidable (wfFlag reg f) := by
  unfold wfFlag
  infer_instance

instance (app : String) (reg : Registry) : Decidable (wfRegistry app reg) := by
  unfold wfRegistry
  infer_instance

/-- Sample registry used by the concrete witnesses: a string-valued `host`
flag and a boolean value shared by the aliases `v` and `verbose`. -/
def wreg : Registry :=
  { flags := [⟨"host", 0, "Host address", ""⟩,
              ⟨"v", 1, "Verbose output", "false"⟩,
              ⟨"verbose", 1, "Verbose output", "false"⟩],
    coerceOf := fun i s =>
      if i = 1 then (if s = "true" ∨ s = "false" then some s else none) else some s,
    valOf := fun i => if i = 0 then "localhost" else "false",
    parsed := false }

/-- Environment of the sample worlds: the override variable is set. -/
def wenv : String → String := fun n => if n = "MYAPPINF0" then "/tmp/conf" else ""

/-- World of the idempotence witness: the file holds exactly the previously
generated bytes, no faults, no command-line arguments. -/
def wworldIdem : World :=
  ⟨wenv, some "/home/u", unlines (renderLines "myapp" wreg []),
    false, false, false, false, []⟩

/-- World of the precedence witness: the file assigns `host`, the command
line overrides it. -/
def wworldPrec : World :=
  ⟨wenv, some "/home/u", "host=filehost\n", false, false, false, false,
    [("host", "clihost")]⟩

/-- World of the write-failure witness: the file assigns `host` a new value,
so a rewrite is due, but the seek step fails. -/
def wworldSeek : World :=
  ⟨wenv, some "/home/u", "host=example.org\n", false, true, false, false, []⟩

/-- Registry showing rune count governs the dedup, not byte count: `éé` has
two runes but four UTF-8 bytes, `abc` has three runes and three bytes; the
rune-longer `abc` is canonical. -/
def wregRune : Registry :=
  { flags := [⟨"éé", 0, "Usage", "x"⟩, ⟨"abc", 0, "Usage", "x"⟩],
    coerceOf := fun _ s => some s,
    valOf := fun _ => "x",
    parsed := false }

/-- World of the obsolete-entry witness: the file's only line names a flag
that does not exist. -/
def wworldObs : World :=
  ⟨wenv, some "/home/u", "old-flag=42\n", false, false, false, false, []⟩

/-- Modelled from the spec's words for C8, for refinement comparison only:
the claimed per-flag block — a blank line, a comment line carrying the usage
text, a separate comment line carrying the default value, then the
`name=value` assignment line. -/
def specBlockLines (reg : Registry) (f : Flagg) : List String :=
  ["",
   "# " ++ (⟨rewriteUsage (unquotedUsage f).data⟩ : String),
   "# " ++ f.defValue,
   assignLine reg f]

theorem dropWhile_eq_self_of_edge {l : List Char} (h : edgeOk l.head? = true) :
    l.dropWhile isSpace = l := by
  cases l with
  | nil => rfl
  | cons c t =>
    simp only [List.head?_cons, edgeOk, Bool.not_eq_true'] at h
    simp [List.dropWhile_cons, h]

theorem trimChars_eq_self {l : List Char} (h : nonSpaceEdges l = true) :
    trimChars l = l := by
  rcases Bool.and_eq_true_iff.mp h with ⟨h1, h2⟩
  unfold trimChars
  rw [dropWhile_eq_self_of_edge h1,
      dropWhile_eq_self_of_edge (by rwa [List.head?_reverse]),
      List.reverse_reverse]

theorem head?_trimChars {c : Char} {t : List Char} (h : isSpace c = false) :
    (trimChars (c :: t)).head? = some c := by
  unfold trimChars
  rw [List.dropWhile_cons, h]
  simp only [Bool.false_eq_true, if_false]
  rw [List.head?_reverse]
  have : (c :: t).reverse = t.reverse ++ [c] := by simp
  rw [this, List.dropWhile_append]
  split
  · rw [List.dropWhile_cons]
    cases hsp : isSpace c with
    | false => simp
    | true => rw [h] at hsp; cases hsp
  · rw [List.getLast?_append, List.getLast?_singleton]
    rfl

theorem sepIdx_append_sep {k : List Char} {s : Char} (v : List Char)
    (hk : k.all (fun c => !isSep c) = true) (hs : isSep s = true) :
    sepIdx (k ++ s :: v) = some k.length := by
  induction k with
  | nil => simp [sepIdx, hs]
  | cons c t ih =>
    simp only [List.all_cons, Bool.and_eq_true, Bool.not_eq_true'] at hk
    have ih' := ih hk.2
    simp only [List.cons_append] at ih' ⊢
    simp [sepIdx, hk.1, ih']

theorem sepIdx_none {l : List Char} (h : l.all (fun c => !isSep c) = true) :
    sepIdx l = none := by
  induction l with
  | nil => rfl
  | cons c t ih =>
    simp only [List.all_cons, Bool.and_eq_true, Bool.not_eq_true'] at h
    simp [sepIdx, h.1, ih (by simp [List.all_eq_true] at h ⊢; exact h.2)]

theorem splitNL_ne_nil (cs : List Char) : splitNL cs ≠ [] := by
  cases cs with
  | nil => simp [splitNL]
  | cons c rest =>
    unfold splitNL
    split
    · simp
    · split <;> simp_all

theorem not_mem_of_elem_false {c : Char} {l : List Char} (h : l.elem c = false) :
    c ∉ l := fun hm => by rw [List.elem_iff.mpr hm] at h; cases h

theorem splitNL_append {a : List Char} (rest : List Char) (h : '\n' ∉ a) :
    splitNL (a ++ '\n' :: rest) = a :: splitNL rest := by
  induction a with
  | nil => simp [splitNL]
  | cons c t ih =>
    rw [List.mem_cons, not_or] at h
    have hc : ¬(c = '\n') := fun e => h.1 e.symm
    rw [List.cons_append]
    have step : splitNL (c :: (t ++ '\n' :: rest)) =
        match splitNL (t ++ '\n' :: rest) with
        | [] => [[c]]
        | p :: ps => (c :: p) :: ps := by
      conv_lhs => unfold splitNL
      rw [if_neg hc]
    rw [step, ih h.2]

theorem dropCR_eq_self {l : List Char} (h : '\r' ∉ l) : dropCR l = l := by
  unfold dropCR
  split
  · next hlast =>
    exact absurd (List.mem_of_mem_getLast? (by rw [hlast]; rfl)) h
  · rfl

theorem scanLines_cons {l rest : List Char}
    (h1 : '\n' ∉ l) (h2 : '\r' ∉ l) :
    scanLines (l ++ '\n' :: rest) = l :: scanLines rest := by
  have hne := splitNL_ne_nil rest
  simp only [scanLines, splitNL_append rest h1]
  cases hps : splitNL rest with
  | nil => exact absurd hps hne
  | cons p ps =>
    rw [List.getLast?_cons_cons]
    by_cases hlast : (p :: ps).getLast? = some []
    · rw [if_pos hlast, if_pos hlast,
        List.dropLast_cons_of_ne_nil (by simp), List.map_cons, dropCR_eq_self h2]
    · rw [if_neg hlast, if_neg hlast, List.map_cons, dropCR_eq_self h2]

theorem splitLines_unlines {ls : List String} (h : ∀ l ∈ ls, noLF l = true) :
    splitLines (unlines ls) = ls := by
  induction ls with
  | nil => rfl
  | cons l ls ih =>
    have hl := h l (List.mem_cons_self l ls)
    rcases Bool.and_eq_true_iff.mp hl with ⟨h1, h2⟩
    rw [Bool.not_eq_true'] at h1 h2
    have h1' := not_mem_of_elem_false h1
    have h2' := not_mem_of_elem_false h2
    have hnl : ("\n" : String).data = ['\n'] := by decide
    have hdata : (unlines (l :: ls)).data = l.data ++ '\n' :: (unlines ls).data := by
      show (l ++ "\n" ++ unlines ls).data = _
      rw [String.data_append, String.data_append, hnl, List.append_assoc]
      rfl
    unfold splitLines
    rw [hdata, scanLines_cons h1' h2', List.map_cons]
    exact congrArg (l :: ·) (ih fun x hx => h x (List.mem_cons_of_mem l hx))

theorem processLine_skip {st : Registry × List (String × String)} {raw : String}
    (h : startsHash (trimChars raw.data) = true ∨ trimChars raw.data = []) :
    processLine st raw = st := by
  have hg : (startsHash (trimChars raw.data) || (trimChars raw.data).isEmpty) = true := by
    rcases h with h | h
    · simp [h]
    · simp [h]
  simp only [processLine, hg, if_true]

theorem processLine_nosep {st : Registry × List (String × String)} {raw : String}
    (hs : sepIdx (trimChars raw.data) = none) :
    processLine st raw = st := by
  by_cases hg : (startsHash (trimChars raw.data) || (trimChars raw.data).isEmpty) = true
  · simp only [processLine, hg, if_true]
  · simp [processLine, hg, hs]

theorem sep_not_space {sep : Char} (hsep : isSep sep = true) : isSpace sep = false := by
  have : sep = '=' ∨ sep = ':' := by simpa [isSep] using hsep
  rcases this with h | h <;> subst h <;> decide

theorem processLine_assign {st : Registry × List (String × String)} {k v : String}
    {sep : Char} (hsep : isSep sep = true) (hk : cleanKey k = true)
    (hv : cleanVal v = true) :
    processLine st ⟨k.data ++ sep :: v.data⟩ =
      (match flagSet st.1 k v with
       | some reg' => (reg', st.2)
       | none => (st.1, obsInsert st.2 k v)) := by
  have hkc := hk
  simp only [cleanKey, Bool.and_eq_true] at hkc
  obtain ⟨⟨⟨⟨hne, hedges⟩, hall⟩, hhash⟩, -⟩ := hkc
  have hvc := hv
  simp only [cleanVal, Bool.and_eq_true] at hvc
  obtain ⟨hvedges, -⟩ := hvc
  have hkne : k.data ≠ [] := by
    cases hx : k.data
    · rw [hx] at hne; cases hne
    · simp
  obtain ⟨c, t, hct⟩ : ∃ c t, k.data = c :: t := by
    cases hx : k.data with
    | nil => exact absurd hx hkne
    | cons c t => exact ⟨c, t, rfl⟩
  have hkedge : edgeOk k.data.head? = true ∧ edgeOk k.data.getLast? = true := by
    simpa [nonSpaceEdges, Bool.and_eq_true] using hedges
  have hvedge : edgeOk v.data.head? = true ∧ edgeOk v.data.getLast? = true := by
    simpa [nonSpaceEdges, Bool.and_eq_true] using hvedges
  have hedge : nonSpaceEdges (k.data ++ sep :: v.data) = true := by
    have hh : (k.data ++ sep :: v.data).head? = k.data.head? := by
      rw [hct]; rfl
    have hl : (k.data ++ sep :: v.data).getLast? = (sep :: v.data).getLast? := by
      rw [List.getLast?_append]
      cases hx : (sep :: v.data).getLast? with
      | none => simp [List.getLast?_cons] at hx
      | some d => rfl
    have hlast : edgeOk (sep :: v.data).getLast? = true := by
      cases hvd : v.data with
      | nil => simp [List.getLast?_singleton, edgeOk, sep_not_space hsep]
      | cons p t' =>
        rw [List.getLast?_cons_cons, ← hvd]
        exact hvedge.2
    simp [nonSpaceEdges, hh, hl, hkedge.1, hlast]
  have hdata : (⟨k.data ++ sep :: v.data⟩ : String).data = k.data ++ sep :: v.data := rfl
  have hguard : (startsHash (k.data ++ sep :: v.data)
      || (k.data ++ sep :: v.data).isEmpty) = false := by
    have hc : ¬(c = '#') := by
      rw [hct] at hhash
      simpa using hhash
    have : (k.data ++ sep :: v.data).head? = some c := by rw [hct]; rfl
    simp [startsHash, this, hc, hct]
  have htake : (k.data ++ sep :: v.data).take k.data.length = k.data :=
    List.take_left _ _
  have hdrop : (k.data ++ sep :: v.data).drop (k.data.length + 1) = v.data := by
    have hsplit : k.data ++ sep :: v.data = (k.data ++ [sep]) ++ v.data := by simp
    have hlen : (k.data ++ [sep]).length = k.data.length + 1 := by simp
    rw [hsplit, ← hlen, List.drop_left]
  simp only [processLine, hdata, trimChars_eq_self hedge, hguard, Bool.false_eq_true,
    if_false, sepIdx_append_sep v.data hall hsep, htake, hdrop,
    trimChars_eq_self hedges, trimChars_eq_self hvedges]

theorem flagSet_fields {reg reg' : Registry} {k v : String}
    (h : flagSet reg k v = some reg') :
    reg'.flags = reg.flags ∧ reg'.coerceOf = reg.coerceOf ∧ reg'.parsed = reg.parsed := by
  unfold flagSet at h
  split at h
  · cases h
  · split at h
    · cases h
    · cases h
      exact ⟨rfl, rfl, rfl⟩

theorem processLine_fst_cases (st : Registry × List (String × String)) (raw : String) :
    (processLine st raw).1 = st.1
      ∨ ∃ k v reg', flagSet st.1 k v = some reg' ∧ (processLine st raw).1 = reg' := by
  unfold processLine
  dsimp only
  split
  · exact Or.inl rfl
  · split
    · exact Or.inl rfl
    · split
      · next reg' heq => exact Or.inr ⟨_, _, reg', heq, rfl⟩
      · exact Or.inl rfl

theorem processLine_fields (st : Registry × List (String × String)) (raw : String) :
    (processLine st raw).1.flags = st.1.flags
      ∧ (processLine st raw).1.coerceOf = st.1.coerceOf
      ∧ (processLine st raw).1.parsed = st.1.parsed := by
  rcases processLine_fst_cases st raw with h | ⟨k, v, reg', heq, h⟩
  · rw [h]
    exact ⟨rfl, rfl, rfl⟩
  · rw [h]
    exact flagSet_fields heq

theorem foldl_processLine_fields (ls : List String) :
    ∀ st : Registry × List (String × String),
      (ls.foldl processLine st).1.flags = st.1.flags
        ∧ (ls.foldl processLine st).1.coerceOf = st.1.coerceOf
        ∧ (ls.foldl processLine st).1.parsed = st.1.parsed := by
  induction ls with
  | nil => exact fun st => ⟨rfl, rfl, rfl⟩
  | cons l ls ih =>
    intro st
    have h1 := processLine_fields st l
    have h2 := ih (processLine st l)
    exact ⟨h2.1.trans h1.1, h2.2.1.trans h1.2.1, h2.2.2.trans h1.2.2⟩

theorem parseConfig_fields (reg : Registry) (ls : List String) :
    (parseConfig reg ls).1.flags = reg.flags
      ∧ (parseConfig reg ls).1.coerceOf = reg.coerceOf
      ∧ (parseConfig reg ls).1.parsed = reg.parsed :=
  foldl_processLine_fields ls (reg, [])

theorem flagSet_self {reg : Registry} {f : Flagg}
    (hlk : lookupFlag reg.flags f.name = some f)
    (hco : reg.coerceOf f.valueId (reg.valOf f.valueId) = some (reg.valOf f.valueId)) :
    flagSet reg f.name (reg.valOf f.valueId) = some reg := by
  unfold flagSet
  rw [hlk]
  dsimp only
  rw [hco]
  dsimp only
  have : (fun j => if j = f.valueId then reg.valOf f.valueId else reg.valOf j)
      = reg.valOf := by
    funext j
    by_cases hj : j = f.valueId
    · rw [if_pos hj, hj]
    · rw [if_neg hj]
  rw [this]

theorem startsHash_trim_of_head {s : String} {t : List Char}
    (h : s.data = '#' :: t) : startsHash (trimChars s.data) = true := by
  rw [h]
  unfold startsHash
  rw [head?_trimChars (by decide)]
  rfl

theorem data_hash_prefixed (x : String) : ("# " ++ x).data = '#' :: ' ' :: x.data := by
  rw [String.data_append]
  have h2 : ("# " : String).data = ['#', ' '] := by decide
  rw [h2]
  rfl

theorem processLine_skip_hash {st : Registry × List (String × String)}
    {raw : String} {t : List Char} (h : raw.data = '#' :: t) :
    processLine st raw = st :=
  processLine_skip (Or.inl (startsHash_trim_of_head h))

theorem usageLine_data (f : Flagg) :
    (usageLine f).data = '#' :: ' ' ::
      ((⟨rewriteUsage (unquotedUsage f).data⟩ : String)
        ++ " (default " ++ f.defValue ++ ")").data := by
  unfold usageLine
  rw [String.append_assoc, String.append_assoc, String.append_assoc]
  rw [data_hash_prefixed]
  rw [String.append_assoc, String.append_assoc]

theorem foldl_skip {ls : List String}
    (h : ∀ l ∈ ls, ∀ st : Registry × List (String × String), processLine st l = st) :
    ∀ st : Registry × List (String × String), ls.foldl processLine st = st := by
  induction ls with
  | nil => exact fun st => rfl
  | cons l ls ih =>
    intro st
    rw [List.foldl_cons, h l (List.mem_cons_self l ls)]
    exact ih (fun x hx st' => h x (List.mem_cons_of_mem l hx) st') st

theorem headerLines_skip (app : String) :
    ∀ l ∈ headerLines app, ∀ st : Registry × List (String × String),
      processLine st l = st := by
  intro l hl st
  have hl' : l = "# " ++ app ++ " configuration"
      ∨ l = "# "
      ∨ l = "# Empty lines or lines starting with # will be ignored."
      ∨ l = "# All other lines must look like \"KEY=VALUE\" (without the quotes)."
      ∨ l = "# The VALUE must not be enclosed in quotes as well!" := by
    simpa [headerLines] using hl
  rcases hl' with h | h | h | h | h
  · subst h
    refine processLine_skip_hash
      (t := ' ' :: (app ++ " configuration").data) ?_
    rw [String.append_assoc, data_hash_prefixed]
  · subst h
    exact processLine_skip (Or.inl (by decide))
  · subst h
    exact processLine_skip (Or.inl (by decide))
  · subst h
    exact processLine_skip (Or.inl (by decide))
  · subst h
    exact processLine_skip (Or.inl (by decide))

theorem assignLine_eq (reg : Registry) (f : Flagg) :
    assignLine reg f = ⟨f.name.data ++ '=' :: (reg.valOf f.valueId).data⟩ := by
  apply String.ext
  show (f.name ++ "=" ++ reg.valOf f.valueId).data = _
  rw [String.data_append, String.data_append]
  have : ("=" : String).data = ['='] := by decide
  rw [this, List.append_assoc]
  rfl

theorem processLine_selfAssign {reg : Registry} {f : Flagg} (hwf : wfFlag reg f) :
    processLine (reg, ([] : List (String × String))) (assignLine reg f)
      = (reg, []) := by
  obtain ⟨hname, hval, -, hco, hlk⟩ := hwf
  rw [assignLine_eq]
  rw [processLine_assign (by decide) hname hval]
  rw [flagSet_self hlk hco]

theorem foldl_blocks {reg : Registry} {fl : List Flagg}
    (hwf : ∀ f ∈ fl, wfFlag reg f) :
    (fl.foldr (fun f acc =>
        (if isCanonical reg.flags f then blockLines reg f else []) ++ acc) []).foldl
      processLine (reg, ([] : List (String × String))) = (reg, []) := by
  induction fl with
  | nil => rfl
  | cons f fl ih =>
    rw [List.foldr_cons, List.foldl_append]
    have hblock : (if isCanonical reg.flags f then blockLines reg f else []).foldl
        processLine (reg, ([] : List (String × String))) = (reg, []) := by
      split
      · show List.foldl processLine (reg, []) ["", usageLine f, assignLine reg f] = (reg, [])
        rw [List.foldl_cons, processLine_skip (Or.inr (by decide))]
        rw [List.foldl_cons, processLine_skip_hash (usageLine_data f)]
        rw [List.foldl_cons, processLine_selfAssign (hwf f (List.mem_cons_self f fl)),
          List.foldl_nil]
      · rfl
    rw [hblock]
    exact ih (fun x hx => hwf x (List.mem_cons_of_mem f hx))

theorem parse_render_self {app : String} {reg : Registry} (hwf : wfRegistry app reg) :
    parseConfig reg (renderLines app reg []) = (reg, []) := by
  unfold parseConfig renderLines
  have hobs : obsLines [] = [] := rfl
  rw [hobs, List.append_nil, List.foldl_append,
    foldl_skip (headerLines_skip app) (reg, [])]
  exact foldl_blocks (fun f hf => hwf.2 f hf)

theorem elem_eq_false_of_not_mem {c : Char} {l : List Char} (h : c ∉ l) :
    l.elem c = false := by
  cases hx : l.elem c
  · rfl
  · exact absurd (List.elem_iff.mp hx) h

theorem noLF_iff {s : String} : noLF s = true ↔ '\n' ∉ s.data ∧ '\r' ∉ s.data := by
  unfold noLF
  rw [Bool.and_eq_true, Bool.not_eq_true', Bool.not_eq_true']
  constructor
  · rintro ⟨h1, h2⟩
    exact ⟨not_mem_of_elem_false h1, not_mem_of_elem_false h2⟩
  · rintro ⟨h1, h2⟩
    exact ⟨elem_eq_false_of_not_mem h1, elem_eq_false_of_not_mem h2⟩

theorem noLF_append {a b : String} (ha : noLF a = true) (hb : noLF b = true) :
    noLF (a ++ b) = true := by
  rw [noLF_iff] at ha hb ⊢
  rw [String.data_append]
  constructor
  · intro hm
    rcases List.mem_append.mp hm with hm | hm
    · exact ha.1 hm
    · exact hb.1 hm
  · intro hm
    rcases List.mem_append.mp hm with hm | hm
    · exact ha.2 hm
    · exact hb.2 hm

theorem mem_foldr_append {g : Flagg → List String} {fl : List Flagg} {l : String}
    (h : l ∈ fl.foldr (fun f acc => g f ++ acc) []) : ∃ f, f ∈ fl ∧ l ∈ g f := by
  induction fl with
  | nil => cases h
  | cons f fl ih =>
    rw [List.foldr_cons] at h
    rcases List.mem_append.mp h with h | h
    · exact ⟨f, List.mem_cons_self f fl, h⟩
    · obtain ⟨x, hx, hl⟩ := ih h
      exact ⟨x, List.mem_cons_of_mem f hx, hl⟩

theorem renderLines_noLF {app : String} {reg : Registry} (hwf : wfRegistry app reg) :
    ∀ l ∈ renderLines app reg [], noLF l = true := by
  intro l hl
  unfold renderLines at hl
  have hobs : obsLines [] = [] := rfl
  rw [hobs, List.append_nil] at hl
  rcases List.mem_append.mp hl with hl | hl
  · have hl' : l = "# " ++ app ++ " configuration"
        ∨ l = "# "
        ∨ l = "# Empty lines or lines starting with # will be ignored."
        ∨ l = "# All other lines must look like \"KEY=VALUE\" (without the quotes)."
        ∨ l = "# The VALUE must not be enclosed in quotes as well!" := by
      simpa [headerLines] using hl
    rcases hl' with h | h | h | h | h <;> subst h
    · exact noLF_append (noLF_append (by decide) hwf.1) (by decide)
    · decide
    · decide
    · decide
    · decide
  · obtain ⟨f, hf, hlf⟩ := mem_foldr_append hl
    obtain ⟨hname, hval, husage, -, -⟩ := hwf.2 f hf
    have hnameLF : noLF f.name = true := by
      have := hname
      simp only [cleanKey, Bool.and_eq_true] at this
      exact this.2
    have hvalLF : noLF (reg.valOf f.valueId) = true := by
      have := hval
      simp only [cleanVal, Bool.and_eq_true] at this
      exact this.2
    rcases hcan : isCanonical reg.flags f with hc | hc
    all_goals rw [hcan] at hlf
    · cases hlf
    · have hl3 : l = "" ∨ l = usageLine f ∨ l = assignLine reg f := by
        simpa [blockLines] using hlf
      rcases hl3 with h | h | h <;> subst h
      · decide
      · exact husage
      · show noLF (f.name ++ "=" ++ reg.valOf f.valueId) = true
        exact noLF_append (noLF_append hnameLF (by decide)) hvalLF

/-- C1: for a well-formed registry whose config file holds exactly the bytes a
previous synchronization generated (with no obsolete entries), re-running
synchronization parses the file back into an unchanged registry and an empty
obsolete set, the regenerated bytes equal the file's current bytes, and no
write is performed: `Parse` returns success with `wrote = false` and the file
bytes untouched. -/
theorem parse_idempotent {app : String} {w : World} {reg : Registry} {p : String}
    (hwf : wfRegistry app reg)
    (hparsed : reg.parsed = false)
    (hpath : getConfigPath app w.env w.userHome = .ok p)
    (hopen : w.openFails = false)
    (hfile : w.file = unlines (renderLines app reg []))
    (hargs : w.args = []) :
    parseConfig reg (splitLines w.file) = (reg, [])
      ∧ unlines (renderLines app (parseConfig reg (splitLines w.file)).1
          (parseConfig reg (splitLines w.file)).2) = w.file
      ∧ Parse app w reg
          = ⟨{ reg with parsed := true }, w.file, none, none, false⟩ := by
  have hsplit : splitLines w.file = renderLines app reg [] := by
    rw [hfile]
    exact splitLines_unlines (renderLines_noLF hwf)
  have hpc : parseConfig reg (splitLines w.file) = (reg, []) := by
    rw [hsplit]
    exact parse_render_self hwf
  have hbytes : unlines (renderLines app (parseConfig reg (splitLines w.file)).1
      (parseConfig reg (splitLines w.file)).2) = w.file := by
    rw [hpc, hfile]
  refine ⟨hpc, hbytes, ?_⟩
  unfold Parse
  rw [hparsed, hpath]
  simp only [Bool.false_eq_true, if_false]
  rw [hopen]
  simp only [Bool.false_eq_true, if_false, hpc]
  rw [if_pos hfile]
  unfold finishParse
  rw [hargs]
  rfl

theorem flagParse_foldl_none (args : List (String × String)) :
    args.foldl (fun o kv => o.bind (fun r => flagSet r kv.1 kv.2)) none = none := by
  induction args with
  | nil => rfl
  | cons kv args ih => simpa using ih

theorem flagParse_parsed {args : List (String × String)} :
    ∀ {o : Option Registry}, (∀ r, o = some r → r.parsed = true) →
      ∀ {r'}, args.foldl (fun o kv => o.bind (fun r => flagSet r kv.1 kv.2)) o = some r' →
        r'.parsed = true := by
  induction args with
  | nil =>
    intro o ho r' h
    exact ho r' h
  | cons kv args ih =>
    intro o ho r' h
    rw [List.foldl_cons] at h
    refine ih ?_ h
    intro r hr
    cases o with
    | none => cases hr
    | some r0 =>
      cases hb : flagSet r0 kv.1 kv.2 with
      | none => rw [show (some r0).bind (fun r => flagSet r kv.1 kv.2) = none by simpa using hb] at hr; cases hr
      | some r1 =>
        have : r = r1 := by
          rw [show (some r0).bind (fun r => flagSet r kv.1 kv.2) = some r1 by simpa using hb] at hr
          exact (Option.some.inj hr).symm
        subst this
        rw [(flagSet_fields hb).2.2]
        exact ho r0 rfl

theorem flagParse_some_parsed {reg : Registry} {args : List (String × String)}
    {r : Registry} (h : flagParse reg args = some r) : r.parsed = true := by
  refine flagParse_parsed ?_ h
  intro r0 h0
  cases h0
  rfl

theorem finishParse_err_none_parsed {reg1 : Registry} {w : World} {fileNow : String}
    {warned : Option String} {wrote : Bool}
    (h : (finishParse reg1 w fileNow warned wrote).err = none) :
    (finishParse reg1 w fileNow warned wrote).reg.parsed = true := by
  cases hfp : flagParse reg1 w.args with
  | none =>
    exfalso
    unfold finishParse at h
    rw [hfp] at h
    simp at h
  | some reg2 =>
    unfold finishParse
    rw [hfp]
    exact flagParse_some_parsed hfp

theorem Parse_success_shape {app : String} {w : World} {reg : Registry}
    (h : (Parse app w reg).err = none) :
    ∃ fileNow warned wrote,
      Parse app w reg
        = finishParse (parseConfig reg (splitLines w.file)).1 w fileNow warned wrote := by
  unfold Parse at h ⊢
  by_cases hp : reg.parsed = true
  · rw [if_pos hp] at h
    simp at h
  · rw [if_neg hp] at h ⊢
    rcases hgc : getConfigPath app w.env w.userHome with e | cPath
    · rw [hgc] at h
      simp at h
    · rw [hgc] at h
      try dsimp only at h ⊢
      by_cases ho : w.openFails = true
      · rw [if_pos ho] at h
        simp at h
      · rw [if_neg ho] at h ⊢
        try dsimp only at h ⊢
        by_cases heq : w.file = unlines (renderLines app
            (parseConfig reg (splitLines w.file)).1 (parseConfig reg (splitLines w.file)).2)
        · rw [if_pos heq]
          exact ⟨_, _, _, rfl⟩
        · rw [if_neg heq] at h ⊢
          by_cases hs : w.seekFails = true
          · rw [if_pos hs] at h
            simp at h
          · rw [if_neg hs] at h ⊢
            by_cases ht : w.truncateFails = true
            · rw [if_pos ht] at h
              simp at h
            · rw [if_neg ht] at h ⊢
              by_cases hw : w.writeFails = true
              · rw [if_pos hw] at h
                simp at h
              · rw [if_neg hw]
                exact ⟨_, _, _, rfl⟩

theorem parse_success_parsed {app : String} {w : World} {reg : Registry}
    (h : (Parse app w reg).err = none) : (Parse app w reg).reg.parsed = true := by
  obtain ⟨fileNow, warned, wrote, hshape⟩ := Parse_success_shape h
  rw [hshape] at h ⊢
  exact finishParse_err_none_parsed h

theorem parse_guard {app : String} {w : World} {reg : Registry}
    (h : reg.parsed = true) :
    Parse app w reg = ⟨reg, w.file, some .alreadyFinalized, none, false⟩ := by
  unfold Parse
  rw [if_pos h]

/-- C6: when the registry is already finalized, `Parse` fails with the
already-finalized error for every world — independent of the environment, the
user lookup, the file's content and any I/O fault, i.e. before any path
resolution or file access — leaving the registry, the file bytes and the
write flag untouched; consequently after a first successful call, a second
call fails exactly this way and does not touch the file. -/
theorem parse_one_shot {app app2 : String} {w w2 : World} {reg : Registry}
    (hsucc : (Parse app w reg).err = none) :
    (∀ app' (w' : World) (r : Registry), r.parsed = true →
        Parse app' w' r = ⟨r, w'.file, some .alreadyFinalized, none, false⟩)
      ∧ Parse app2 w2 (Parse app w reg).reg
          = ⟨(Parse app w reg).reg, w2.file, some .alreadyFinalized, none, false⟩ := by
  refine ⟨fun app' w' r hr => parse_guard hr, ?_⟩
  exact parse_guard (parse_success_parsed hsucc)

/-- C2: when `Parse` succeeds and the command line supplies the single
argument `k=v` for a registered flag whose validation accepts `v` (stored
form `s`), the flag's final value is the command-line value `s`, whatever the
config file assigned to it earlier — file values are applied during parsing,
and the external argument parse runs only afterwards, so the precedence order
is defaults < file < command line. -/
theorem parse_precedence {app : String} {w : World} {reg : Registry}
    {k v s : String} {f : Flagg}
    (hargs : w.args = [(k, v)])
    (hlk : lookupFlag reg.flags k = some f)
    (hco : reg.coerceOf f.valueId v = some s)
    (hsucc : (Parse app w reg).err = none) :
    (Parse app w reg).reg.valOf f.valueId = s := by
  obtain ⟨fileNow, warned, wrote, hshape⟩ := Parse_success_shape hsucc
  rw [hshape]
  have hfields := parseConfig_fields reg (splitLines w.file)
  generalize hg : (parseConfig reg (splitLines w.file)).1 = reg1 at hshape hfields ⊢
  obtain ⟨hfl, hcoe, -⟩ := hfields
  have h1 : lookupFlag reg1.flags k = some f := by rw [hfl]; exact hlk
  have h2 : reg1.coerceOf f.valueId v = some s := by rw [hcoe]; exact hco
  have hset : flagSet { reg1 with parsed := true } k v
      = some { flags := reg1.flags, coerceOf := reg1.coerceOf,
               valOf := fun j => if j = f.valueId then s else reg1.valOf j,
               parsed := true } := by
    unfold flagSet
    dsimp only
    rw [h1]
    dsimp only
    rw [h2]
  unfold finishParse
  rw [hargs]
  rw [show flagParse reg1 [(k, v)] = flagSet { reg1 with parsed := true } k v from rfl,
    hset]
  dsimp only
  rw [if_pos rfl]

/-- Witness for C1: the side conditions hold for the sample registry, and
re-running synchronization over the generated file performs no write, keeps
the bytes, and succeeds. -/
theorem parse_idempotent_witness :
    wfRegistry "myapp" wreg
      ∧ (Parse "myapp" wworldIdem wreg).wrote = false
      ∧ (Parse "myapp" wworldIdem wreg).file = wworldIdem.file
      ∧ (Parse "myapp" wworldIdem wreg).err = none := by
  have h := @parse_idempotent "myapp" wworldIdem wreg "/tmp/conf"
    (by decide) rfl rfl rfl rfl rfl
  refine ⟨by decide, ?_, ?_, ?_⟩ <;> rw [h.2.2]

/-- Witness for C2: with `host=filehost` in the file and `host=clihost` on
the command line, the final value of `host` is the command-line one. -/
theorem parse_precedence_witness :
    (Parse "myapp" wworldPrec wreg).err = none
      ∧ (Parse "myapp" wworldPrec wreg).reg.valOf 0 = "clihost" := by
  refine ⟨by decide, ?_⟩
  exact @parse_precedence "myapp" wworldPrec wreg "host" "clihost" "clihost"
    ⟨"host", 0, "Host address", ""⟩ rfl (by decide) rfl (by decide)

/-- Witness for C6: after a successful first call, a second call fails with
the already-finalized error and leaves the file bytes unchanged. -/
theorem parse_one_shot_witness :
    (Parse "myapp" wworldIdem wreg).err = none
      ∧ (Parse "myapp" wworldIdem (Parse "myapp" wworldIdem wreg).reg).err
          = some .alreadyFinalized
      ∧ (Parse "myapp" wworldIdem (Parse "myapp" wworldIdem wreg).reg).file
          = wworldIdem.file := by
  have hs : (Parse "myapp" wworldIdem wreg).err = none := by decide
  have h := @parse_one_shot "myapp" "myapp" wworldIdem wworldIdem wreg hs
  exact ⟨hs, by rw [h.2], by rw [h.2]⟩

/-- C9: when the regenerated bytes differ from the file's bytes and the seek,
truncate or write step fails, `Parse` returns a config I/O error naming the
failing stage, yet the registry it leaves behind is exactly the one produced
by applying the file's values — a write failure does not unwind file-sourced
option values (and the final command-line parse never ran). -/
theorem parse_write_failure {app : String} {w : World} {reg : Registry} {p : String}
    (hparsed : reg.parsed = false)
    (hpath : getConfigPath app w.env w.userHome = .ok p)
    (hopen : w.openFails = false)
    (hdiff : w.file ≠ unlines (renderLines app (parseConfig reg (splitLines w.file)).1
        (parseConfig reg (splitLines w.file)).2))
    (hfail : w.seekFails = true ∨ w.truncateFails = true ∨ w.writeFails = true) :
    (∃ stage, (Parse app w reg).err = some (.ioFail stage))
      ∧ (Parse app w reg).reg = (parseConfig reg (splitLines w.file)).1
      ∧ (Parse app w reg).wrote = false
      ∧ (Parse app w reg).reg.parsed = false := by
  have hparsed1 : (parseConfig reg (splitLines w.file)).1.parsed = false := by
    rw [(parseConfig_fields reg (splitLines w.file)).2.2]
    exact hparsed
  unfold Parse
  rw [hparsed, hpath]
  simp only [Bool.false_eq_true, if_false]
  rw [hopen]
  simp only [Bool.false_eq_true, if_false]
  rw [if_neg hdiff]
  by_cases hs : w.seekFails = true
  · rw [if_pos hs]
    exact ⟨⟨"seek", rfl⟩, rfl, rfl, hparsed1⟩
  · rw [if_neg hs]
    by_cases ht : w.truncateFails = true
    · rw [if_pos ht]
      exact ⟨⟨"truncate", rfl⟩, rfl, rfl, hparsed1⟩
    · rw [if_neg ht]
      by_cases hw : w.writeFails = true
      · rw [if_pos hw]
        exact ⟨⟨"write", rfl⟩, rfl, rfl, hparsed1⟩
      · rcases hfail with h | h | h
        · exact absurd h hs
        · exact absurd h ht
        · exact absurd h hw

/-- Witness for C9: with a failing seek, the call errors with a config I/O
error while the `host` value read from the file stays applied. -/
theorem parse_write_failure_witness :
    (Parse "myapp" wworldSeek wreg).err = some (.ioFail "seek")
      ∧ (Parse "myapp" wworldSeek wreg).reg.valOf 0 = "example.org"
      ∧ (Parse "myapp" wworldSeek wreg).wrote = false := by
  have h := @parse_write_failure "myapp" wworldSeek wreg "/tmp/conf"
    rfl rfl rfl (by decide) (Or.inl rfl)
  refine ⟨?_, ?_, h.2.2.1⟩
  · obtain ⟨stage, hst⟩ := h.1
    rw [hst]
    have : stage = "seek" := by
      have := hst
      rw [show (Parse "myapp" wworldSeek wreg).err = some (.ioFail "seek") by decide]
        at this
      exact ((ConfyError.ioFail.inj (Option.some.inj this))).symm
    rw [this]
  · rw [h.2.1]
    decide

/-- C7: the resolved config path is the value of the environment variable
`UPPER(app) ++ "INF0"` whenever that variable is set non-empty; otherwise it
is the home directory joined with `"." ++ lower(app) ++ "inf0"` when the user
lookup succeeds; and the call fails with the environment-resolution error
exactly when the variable is unset/empty and the user lookup fails. -/
theorem getConfigPath_spec (appName : String) (env : String → String)
    (userHome : Option String) :
    (env (upperS appName ++ "INF0") ≠ "" →
        getConfigPath appName env userHome = .ok (env (upperS appName ++ "INF0")))
      ∧ (env (upperS appName ++ "INF0") = "" → ∀ home, userHome = some home →
          getConfigPath appName env userHome
            = .ok (joinPath home ("." ++ lowerS appName ++ "inf0")))
      ∧ (getConfigPath appName env userHome = .error .envResolution
          ↔ env (upperS appName ++ "INF0") = "" ∧ userHome = none)
      ∧ (∀ e, getConfigPath appName env userHome = .error e → e = .envResolution) := by
  unfold getConfigPath
  by_cases he : env (upperS appName ++ "INF0") = ""
  · rw [if_pos he]
    cases userHome with
    | none =>
      refine ⟨fun hne => absurd he hne, ?_, ?_, ?_⟩
      · intro _ home hh
        exact Option.noConfusion hh
      · exact ⟨fun _ => ⟨he, rfl⟩, fun _ => rfl⟩
      · intro e hcontra
        exact (Except.error.inj hcontra).symm
    | some home =>
      refine ⟨fun hne => absurd he hne, ?_, ?_, ?_⟩
      · intro _ h hh
        cases hh
        rfl
      · refine ⟨fun hcontra => Except.noConfusion hcontra, ?_⟩
        rintro ⟨-, hcontra⟩
        exact Option.noConfusion hcontra
      · intro e hcontra
        exact Except.noConfusion hcontra
  · rw [if_neg he]
    refine ⟨fun _ => rfl, fun h0 => absurd h0 he, ?_, ?_⟩
    · refine ⟨fun hcontra => Except.noConfusion hcontra, ?_⟩
      rintro ⟨h0, -⟩
      exact absurd h0 he
    · intro e hcontra
      exact Except.noConfusion hcontra

/-- Witness for C7: with the override set, the path is the override verbatim;
with it unset, the path is the home dot-file; with no user either, the error. -/
theorem getConfigPath_spec_witness :
    getConfigPath "myapp" wenv (some "/home/u") = .ok "/tmp/conf"
      ∧ getConfigPath "myapp" (fun _ => "") (some "/home/u")
          = .ok "/home/u/.myappinf0"
      ∧ getConfigPath "myapp" (fun _ => "") none = .error .envResolution := by
  refine ⟨?_, ?_, ?_⟩
  · have h := (getConfigPath_spec "myapp" wenv (some "/home/u")).1 (by decide)
    rw [h]
    exact congrArg Except.ok (by decide)
  · have h := (getConfigPath_spec "myapp" (fun _ => "") (some "/home/u")).2.1 rfl
      "/home/u" rfl
    rw [h]
    exact congrArg Except.ok (by decide)
  · exact (getConfigPath_spec "myapp" (fun _ => "") none).2.2.1.mpr ⟨rfl, rfl⟩

theorem sepIdx_first : ∀ (cs : List Char) (i : Nat), sepIdx cs = some i →
    ∃ hi : i < cs.length, isSep (cs.get ⟨i, hi⟩) = true
      ∧ ∀ j (hj : j < cs.length), j < i → isSep (cs.get ⟨j, hj⟩) = false := by
  intro cs
  induction cs with
  | nil => intro i h; cases h
  | cons c rest ih =>
    intro i h
    unfold sepIdx at h
    by_cases hc : isSep c = true
    · rw [if_pos hc] at h
      cases h
      refine ⟨Nat.succ_pos _, hc, ?_⟩
      intro j hj hji
      exact absurd hji (Nat.not_lt_zero j)
    · rw [if_neg hc] at h
      cases hs : sepIdx rest with
      | none => rw [hs] at h; cases h
      | some i' =>
        rw [hs] at h
        have hii : i = i' + 1 := by simpa using h.symm
        subst hii
        obtain ⟨hi, hsep, hfirst⟩ := ih i' hs
        refine ⟨Nat.succ_lt_succ hi, by simpa using hsep, ?_⟩
        intro j hj hji
        cases j with
        | zero => simpa using hc
        | succ j' =>
          have hj' : j' < rest.length := Nat.lt_of_succ_lt_succ hj
          simpa using hfirst j' hj' (Nat.lt_of_succ_lt_succ hji)

/-- C5: per-line parser behavior — the line is trimmed and then (a) skipped
when blank or starting with `#`, (b) silently skipped (no value applied, no
obsolete entry, no error) when it contains neither `=` nor `:`, (c) the
separator index returned is the first occurrence of `=` or `:`, and (d) a
`key<sep>value` line is split there into the trimmed key and the trimmed
literal value and handed to the registry's set contract, recording the pair as
obsolete exactly when that fails. -/
theorem parseConfig_line_spec :
    (∀ (st : Registry × List (String × String)) (raw : String),
        trimChars raw.data = [] ∨ startsHash (trimChars raw.data) = true →
          processLine st raw = st)
      ∧ (∀ (st : Registry × List (String × String)) (raw : String),
          sepIdx (trimChars raw.data) = none → processLine st raw = st)
      ∧ (∀ (cs : List Char) (i : Nat), sepIdx cs = some i →
          ∃ hi : i < cs.length, isSep (cs.get ⟨i, hi⟩) = true
            ∧ ∀ j (hj : j < cs.length), j < i → isSep (cs.get ⟨j, hj⟩) = false)
      ∧ (∀ (st : Registry × List (String × String)) (k v : String) (sep : Char),
          isSep sep = true → cleanKey k = true → cleanVal v = true →
            processLine st ⟨k.data ++ sep :: v.data⟩
              = match flagSet st.1 k v with
                | some reg' => (reg', st.2)
                | none => (st.1, obsInsert st.2 k v)) :=
  ⟨fun _ _ h => processLine_skip h.symm,
   fun _ _ h => processLine_nosep h,
   sepIdx_first,
   fun _ _ _ _ h1 h2 h3 => processLine_assign h1 h2 h3⟩

/-- Witness for C5: a blank line, a comment line and a separator-free line
leave the state untouched; an unknown `old-flag=42` line is split at the `=`
and recorded as an obsolete pair. -/
theorem parseConfig_line_spec_witness :
    processLine (wreg, []) "   " = (wreg, [])
      ∧ processLine (wreg, []) "# comment" = (wreg, [])
      ∧ processLine (wreg, []) "just some text" = (wreg, [])
      ∧ processLine (wreg, []) ⟨("old-flag" : String).data ++ '=' :: ("42" : String).data⟩
          = (wreg, [("old-flag", "42")]) := by
  refine ⟨parseConfig_line_spec.1 _ _ (Or.inl (by decide)),
          parseConfig_line_spec.1 _ _ (Or.inr (by decide)),
          parseConfig_line_spec.2.1 _ _ (by decide), ?_⟩
  rw [parseConfig_line_spec.2.2.2 (wreg, []) "old-flag" "42" '='
    (by decide) (by decide) (by decide)]
  rfl

/-- C10: assignments of known keys are applied in file line order, so when the
last line of the file assigns `k` (a registered flag accepting value `v` with
stored form `s`), the flag's value after parsing is that last assignment, no
matter what any earlier line — including earlier assignments of the same key —
set it to. -/
theorem parseConfig_last_wins {reg : Registry} {xs : List String} {k v s : String}
    {f : Flagg}
    (hk : cleanKey k = true) (hv : cleanVal v = true)
    (hlk : lookupFlag reg.flags k = some f)
    (hco : reg.coerceOf f.valueId v = some s) :
    (parseConfig reg (xs ++ [⟨k.data ++ '=' :: v.data⟩])).1.valOf f.valueId = s := by
  unfold parseConfig
  rw [List.foldl_append]
  have hfields := foldl_processLine_fields xs ((reg, []) : Registry × List (String × String))
  generalize hst : List.foldl processLine ((reg, []) : Registry × List (String × String)) xs
    = st at hfields ⊢
  obtain ⟨r, obs⟩ := st
  rw [List.foldl_cons, List.foldl_nil]
  rw [processLine_assign (by decide) hk hv]
  have h1 : lookupFlag r.flags k = some f := by
    rw [show r.flags = reg.flags from hfields.1]
    exact hlk
  have h2 : r.coerceOf f.valueId v = some s := by
    rw [show r.coerceOf = reg.coerceOf from hfields.2.1]
    exact hco
  have hset : flagSet r k v
      = some { flags := r.flags, coerceOf := r.coerceOf,
               valOf := fun j => if j = f.valueId then s else r.valOf j,
               parsed := r.parsed } := by
    unfold flagSet
    rw [h1]
    dsimp only
    rw [h2]
  show (match flagSet r k v with
        | some reg' => (reg', obs)
        | none => (r, obsInsert obs k v)).1.valOf f.valueId = s
  rw [hset]
  dsimp only
  rw [if_pos rfl]

/-- Witness for C10: with `host=first` earlier in the file and `host=second`
as the last line, the parsed value of `host` is `second`. -/
theorem parseConfig_last_wins_witness :
    (parseConfig wreg (["host=first"]
        ++ [⟨("host" : String).data ++ '=' :: ("second" : String).data⟩])).1.valOf 0
      = "second" :=
  @parseConfig_last_wins wreg ["host=first"] "host" "second" "second"
    ⟨"host", 0, "Host address", ""⟩ (by decide) (by decide) rfl rfl

theorem find?_map_other {m : List (Nat × Flagg)} {j i : Nat} {g : Flagg}
    (hne : j ≠ i) :
    (m.map (fun p => if p.1 == j then (j, g) else p)).find? (fun p => p.1 == i)
      = m.find? (fun p => p.1 == i) := by
  induction m with
  | nil => rfl
  | cons p m ih =>
    rw [List.map_cons]
    by_cases hpj : (p.1 == j) = true
    · have hp : p.1 = j := by simpa using hpj
      have h1 : ¬(((j, g) : Nat × Flagg).1 == i) = true := by simpa using hne
      have h2 : ¬(p.1 == i) = true := by
        rw [hp]
        simpa using hne
      rw [if_pos hpj, List.find?_cons_of_neg (p := fun q : Nat × Flagg => q.1 == i) _ h1,
        List.find?_cons_of_neg (p := fun q : Nat × Flagg => q.1 == i) _ h2]
      exact ih
    · rw [if_neg hpj]
      by_cases hpi : (p.1 == i) = true
      · rw [List.find?_cons_of_pos (p := fun q : Nat × Flagg => q.1 == i) _ hpi,
          List.find?_cons_of_pos (p := fun q : Nat × Flagg => q.1 == i) _ hpi]
      · rw [List.find?_cons_of_neg (p := fun q : Nat × Flagg => q.1 == i) _ hpi,
          List.find?_cons_of_neg (p := fun q : Nat × Flagg => q.1 == i) _ hpi]
        exact ih

theorem find?_map_overwrite {m : List (Nat × Flagg)} {j : Nat} {g : Flagg}
    {q : Nat × Flagg} (hfound : m.find? (fun p => p.1 == j) = some q) :
    (m.map (fun p => if p.1 == j then (j, g) else p)).find? (fun p => p.1 == j)
      = some (j, g) := by
  induction m with
  | nil => cases hfound
  | cons p m ih =>
    rw [List.map_cons]
    by_cases hpj : (p.1 == j) = true
    · rw [if_pos hpj]
      exact List.find?_cons_of_pos (p := fun q : Nat × Flagg => q.1 == j) _ (by simp)
    · rw [List.find?_cons_of_neg (p := fun q : Nat × Flagg => q.1 == j) _ hpj] at hfound
      rw [if_neg hpj, List.find?_cons_of_neg (p := fun q : Nat × Flagg => q.1 == j) _ hpj]
      exact ih hfound

theorem matchEntry_some_fst {m : List (Nat × Flagg)} {i : Nat} {q : Nat × Flagg}
    (h : matchEntry m i = some q) : q.1 = i := by
  have := List.find?_some h
  simpa using this

theorem matchEntry_dedupStep_other {m : List (Nat × Flagg)} {g : Flagg} {i : Nat}
    (hne : g.valueId ≠ i) : matchEntry (dedupStep m g) i = matchEntry m i := by
  unfold dedupStep
  cases hm : matchEntry m g.valueId with
  | none =>
    unfold matchEntry
    rw [List.find?_append]
    have h1 : List.find? (fun p => p.1 == i) [(g.valueId, g)] = none := by
      simp [hne]
    rw [h1, Option.or_none]
  | some q =>
    obtain ⟨i0, cur⟩ := q
    try dsimp only
    split
    · exact find?_map_other hne
    · rfl

theorem matchEntry_dedupStep_self {m : List (Nat × Flagg)} {g : Flagg} :
    matchEntry (dedupStep m g) g.valueId
      = some (match matchEntry m g.valueId with
          | none => (g.valueId, g)
          | some (_, cur) =>
            if g.name.length > cur.name.length then (g.valueId, g)
            else (g.valueId, cur)) := by
  unfold dedupStep
  cases hm : matchEntry m g.valueId with
  | none =>
    unfold matchEntry at hm ⊢
    rw [List.find?_append, hm]
    simp
  | some q =>
    obtain ⟨i0, cur⟩ := q
    have hi0 : i0 = g.valueId := matchEntry_some_fst hm
    subst hi0
    show matchEntry (if g.name.length > cur.name.length
        then m.map (fun p => if p.1 == g.valueId then (g.valueId, g) else p) else m)
        g.valueId
      = some (if g.name.length > cur.name.length then (g.valueId, g)
              else (g.valueId, cur))
    by_cases hgt : g.name.length > cur.name.length
    · rw [if_pos hgt, if_pos hgt]
      exact find?_map_overwrite hm
    · rw [if_neg hgt, if_neg hgt]
      exact hm

theorem dedup_aux {f : Flagg} : ∀ (fl : List Flagg) (m : List (Nat × Flagg)),
    (matchEntry m f.valueId = some (f.valueId, f)
      ∨ (f ∈ fl ∧ (matchEntry m f.valueId = none
          ∨ ∃ cur, matchEntry m f.valueId = some (f.valueId, cur)
              ∧ cur.name.length < f.name.length))) →
    (∀ g ∈ fl, g.valueId = f.valueId → g = f ∨ g.name.length < f.name.length) →
    matchEntry (fl.foldl dedupStep m) f.valueId = some (f.valueId, f) := by
  intro fl
  induction fl with
  | nil =>
    intro m hstate hmax
    rcases hstate with h | ⟨hf, -⟩
    · simpa using h
    · cases hf
  | cons g fl ih =>
    intro m hstate hmax
    rw [List.foldl_cons]
    refine ih (dedupStep m g) ?_ (fun g' hg' hid => hmax g' (List.mem_cons_of_mem g hg') hid)
    by_cases hng : g.valueId = f.valueId
    · have hself0 := matchEntry_dedupStep_self (m := m) (g := g)
      rw [hng] at hself0
      rcases hstate with hdone | ⟨hfmem, hinv⟩
      · rw [hdone] at hself0
        have hself : matchEntry (dedupStep m g) f.valueId
            = some (if g.name.length > f.name.length then (f.valueId, g)
                    else (f.valueId, f)) := hself0
        rcases hmax g (List.mem_cons_self g fl) hng with hgf | hlt
        · subst hgf
          rw [if_neg (lt_irrefl _)] at hself
          exact Or.inl hself
        · rw [if_neg (by omega)] at hself
          exact Or.inl hself
      · rcases hinv with hnone | ⟨cur, hcur, hcl⟩
        · rw [hnone] at hself0
          have hself : matchEntry (dedupStep m g) f.valueId
              = some (f.valueId, g) := hself0
          rcases hmax g (List.mem_cons_self g fl) hng with hgf | hlt
          · subst hgf
            exact Or.inl hself
          · have hfne : f ≠ g := by
              intro he
              rw [he] at hlt
              omega
            have hffl : f ∈ fl := by
              rcases List.mem_cons.mp hfmem with he | hm
              · exact absurd he hfne
              · exact hm
            exact Or.inr ⟨hffl, Or.inr ⟨g, hself, hlt⟩⟩
        · rw [hcur] at hself0
          have hself : matchEntry (dedupStep m g) f.valueId
              = some (if g.name.length > cur.name.length then (f.valueId, g)
                      else (f.valueId, cur)) := hself0
          rcases hmax g (List.mem_cons_self g fl) hng with hgf | hlt
          · subst hgf
            rw [if_pos hcl] at hself
            exact Or.inl hself
          · have hfne : f ≠ g := by
              intro he
              rw [he] at hlt
              omega
            have hffl : f ∈ fl := by
              rcases List.mem_cons.mp hfmem with he | hm
              · exact absurd he hfne
              · exact hm
            by_cases hgc : g.name.length > cur.name.length
            · rw [if_pos hgc] at hself
              exact Or.inr ⟨hffl, Or.inr ⟨g, hself, hlt⟩⟩
            · rw [if_neg hgc] at hself
              exact Or.inr ⟨hffl, Or.inr ⟨cur, hself, hcl⟩⟩
    · have hother := matchEntry_dedupStep_other (m := m) (g := g) hng
      rcases hstate with hdone | ⟨hfmem, hinv⟩
      · exact Or.inl (hother.trans hdone)
      · have hfne : f ≠ g := by
          intro he
          rw [he] at hng
          exact hng rfl
        have hffl : f ∈ fl := by
          rcases List.mem_cons.mp hfmem with he | hm
          · exact absurd he hfne
          · exact hm
        rcases hinv with hnone | ⟨cur, hcur, hcl⟩
        · exact Or.inr ⟨hffl, Or.inl (hother.trans hnone)⟩
        · exact Or.inr ⟨hffl, Or.inr ⟨cur, hother.trans hcur, hcl⟩⟩

theorem dedup_entry_max {fl : List Flagg} {f : Flagg} (hf : f ∈ fl)
    (hmax : ∀ g ∈ fl, g.valueId = f.valueId → g = f ∨ g.name.length < f.name.length) :
    matchEntry (dedupMap fl) f.valueId = some (f.valueId, f) :=
  dedup_aux fl [] (Or.inr ⟨hf, Or.inl rfl⟩) hmax

theorem isCanonical_of_max {fl : List Flagg} {f : Flagg} (hf : f ∈ fl)
    (hmax : ∀ g ∈ fl, g.valueId = f.valueId → g = f ∨ g.name.length < f.name.length) :
    isCanonical fl f = true := by
  unfold isCanonical
  rw [dedup_entry_max hf hmax]
  simp

theorem isCanonical_alias_false {fl : List Flagg} {f g : Flagg} (hf : f ∈ fl)
    (hmax : ∀ g ∈ fl, g.valueId = f.valueId → g = f ∨ g.name.length < f.name.length)
    (hg : g ∈ fl) (hid : g.valueId = f.valueId) (hne : g ≠ f) :
    isCanonical fl g = false := by
  unfold isCanonical
  rw [hid, dedup_entry_max hf hmax]
  have hlt : g.name.length < f.name.length := (hmax g hg hid).resolve_left hne
  have hneq : (f.name == g.name) = false := by
    cases hb : f.name == g.name with
    | false => rfl
    | true =>
      exfalso
      have : f.name = g.name := by simpa using hb
      rw [this] at hlt
      omega
  simpa using hneq

theorem cleanKey_all_noSep {s : String} (h : cleanKey s = true) :
    s.data.all (fun c => !isSep c) = true := by
  simp only [cleanKey, Bool.and_eq_true] at h
  exact h.1.1.2

theorem cleanKey_head_ne_hash {s : String} (h : cleanKey s = true) :
    s.data.head? ≠ some '#' := by
  simp only [cleanKey, Bool.and_eq_true] at h
  simpa using h.1.2

theorem cleanKey_ne_nil {s : String} (h : cleanKey s = true) : s.data ≠ [] := by
  simp only [cleanKey, Bool.and_eq_true] at h
  have := h.1.1.1.1
  intro hx
  rw [hx] at this
  cases this

theorem mem_flagLines {reg : Registry} {f : Flagg} {l : String}
    (hf : f ∈ reg.flags) (hcan : isCanonical reg.flags f = true)
    (hl : l ∈ blockLines reg f) : l ∈ flagLines reg := by
  unfold flagLines
  have hgen : ∀ fl : List Flagg, f ∈ fl →
      l ∈ fl.foldr (fun f acc =>
        (if isCanonical reg.flags f then blockLines reg f else []) ++ acc) [] := by
    intro fl
    induction fl with
    | nil => intro h; cases h
    | cons g fl ih =>
      intro h
      rw [List.foldr_cons]
      rcases List.mem_cons.mp h with he | hm
      · subst he
        rw [if_pos hcan]
        exact List.mem_append_left _ hl
      · exact List.mem_append_right _ (ih hm)
  exact hgen reg.flags hf

theorem headerLines_head {app : String} {l : String} (hl : l ∈ headerLines app) :
    l.data.head? = some '#' := by
  have hl' : l = "# " ++ app ++ " configuration"
      ∨ l = "# "
      ∨ l = "# Empty lines or lines starting with # will be ignored."
      ∨ l = "# All other lines must look like \"KEY=VALUE\" (without the quotes)."
      ∨ l = "# The VALUE must not be enclosed in quotes as well!" := by
    simpa [headerLines] using hl
  rcases hl' with h | h | h | h | h <;> subst h
  · rw [String.append_assoc, data_hash_prefixed]
    rfl
  · decide
  · decide
  · decide
  · decide

theorem usageLine_head (f : Flagg) : (usageLine f).data.head? = some '#' := by
  rw [usageLine_data]
  rfl

theorem assignLine_data (reg : Registry) (f : Flagg) :
    (assignLine reg f).data = f.name.data ++ '=' :: (reg.valOf f.valueId).data :=
  congrArg String.data (assignLine_eq reg f)

theorem assignLine_name_eq {reg : Registry} {g h : Flagg}
    (hkg : cleanKey g.name = true) (hkh : cleanKey h.name = true)
    (heq : assignLine reg h = assignLine reg g) : h.name = g.name := by
  have hd : h.name.data ++ '=' :: (reg.valOf h.valueId).data
      = g.name.data ++ '=' :: (reg.valOf g.valueId).data := by
    have := congrArg String.data heq
    rw [assignLine_data, assignLine_data] at this
    exact this
  have h1 : sepIdx (h.name.data ++ '=' :: (reg.valOf h.valueId).data)
      = some h.name.data.length :=
    sepIdx_append_sep _ (cleanKey_all_noSep hkh) (by decide)
  have h2 : sepIdx (g.name.data ++ '=' :: (reg.valOf g.valueId).data)
      = some g.name.data.length :=
    sepIdx_append_sep _ (cleanKey_all_noSep hkg) (by decide)
  rw [hd, h2] at h1
  have hlen : g.name.data.length = h.name.data.length := Option.some.inj h1
  have := List.append_inj hd hlen.symm
  exact String.ext this.1

theorem assignLine_not_mem {app : String} {reg : Registry} {g : Flagg}
    (hclean : ∀ h ∈ reg.flags, cleanKey h.name = true)
    (hnames : ∀ h ∈ reg.flags, ∀ h' ∈ reg.flags, h.name = h'.name → h = h')
    (hg : g ∈ reg.flags)
    (hcan : isCanonical reg.flags g = false) :
    assignLine reg g ∉ renderLines app reg [] := by
  intro hmem
  unfold renderLines at hmem
  rw [show obsLines [] = [] from rfl, List.append_nil] at hmem
  obtain ⟨c, t, hct⟩ : ∃ c t, g.name.data = c :: t := by
    cases hx : g.name.data with
    | nil => exact absurd hx (cleanKey_ne_nil (hclean g hg))
    | cons c t => exact ⟨c, t, rfl⟩
  have hghead : (assignLine reg g).data.head? = g.name.data.head? := by
    rw [assignLine_data, hct]
    rfl
  rcases List.mem_append.mp hmem with hh | hf
  · have hx := headerLines_head hh
    rw [hghead] at hx
    exact cleanKey_head_ne_hash (hclean g hg) hx
  · obtain ⟨h, hhmem, hlf⟩ := mem_foldr_append hf
    by_cases hc : isCanonical reg.flags h = true
    · rw [if_pos hc] at hlf
      have h3 : assignLine reg g = "" ∨ assignLine reg g = usageLine h
          ∨ assignLine reg g = assignLine reg h := by
        simpa [blockLines] using hlf
      rcases h3 with h0 | h0 | h0
      · have hlen : (assignLine reg g).data.length = ("" : String).data.length :=
          congrArg (fun s : String => s.data.length) h0
        rw [assignLine_data] at hlen
        simp at hlen
      · have hx : (assignLine reg g).data.head? = (usageLine h).data.head? :=
          congrArg (fun s : String => s.data.head?) h0
        rw [usageLine_head, hghead] at hx
        exact cleanKey_head_ne_hash (hclean g hg) hx
      · have hn := assignLine_name_eq (hclean g hg) (hclean h hhmem) h0.symm
        have hhg : h = g := hnames h hhmem g hg hn
        rw [hhg] at hc
        rw [hc] at hcan
        cases hcan
    · rw [if_neg hc] at hlf
      cases hlf

/-- C3: among registered options sharing one underlying value, the one whose
name has the strictly largest character (rune) count — `Flagg.name.length`
counts characters, which is exactly Go's `utf8.RuneCountInString`, not the
byte count — is the partition's sole canonical representative: it passes the
emission guard and its `name=value` line appears in the regenerated file,
while every other alias of that value fails the guard and has no `name=value`
line anywhere in the output (shown for a regeneration with no obsolete
entries, under clean, unambiguous flag names). -/
theorem dedup_longest {app : String} {reg : Registry} {f : Flagg}
    (hmem : f ∈ reg.flags)
    (hmax : ∀ g ∈ reg.flags, g.valueId = f.valueId
        → g = f ∨ g.name.length < f.name.length)
    (hclean : ∀ g ∈ reg.flags, cleanKey g.name = true)
    (hnames : ∀ g ∈ reg.flags, ∀ h ∈ reg.flags, g.name = h.name → g = h) :
    isCanonical reg.flags f = true
      ∧ assignLine reg f ∈ renderLines app reg []
      ∧ ∀ g ∈ reg.flags, g.valueId = f.valueId → g ≠ f →
          isCanonical reg.flags g = false
            ∧ assignLine reg g ∉ renderLines app reg [] := by
  have hcan := isCanonical_of_max hmem hmax
  refine ⟨hcan, ?_, ?_⟩
  · unfold renderLines
    rw [show obsLines [] = [] from rfl, List.append_nil]
    exact List.mem_append_right _
      (mem_flagLines hmem hcan (by simp [blockLines]))
  · intro g hg hid hne
    have hgc := isCanonical_alias_false hmem hmax hg hid hne
    exact ⟨hgc, assignLine_not_mem hclean hnames hg hgc⟩

/-- Witness for C3: in the sample registry `verbose` (7 runes) beats its alias
`v` (1 rune): only `verbose=false` is rendered and `v=false` nowhere appears;
and in the rune-count registry `abc` (3 runes, 3 bytes) beats `éé` (2 runes
but 4 bytes), so character count, not byte count, decides. -/
theorem dedup_longest_witness :
    (isCanonical wreg.flags ⟨"verbose", 1, "Verbose output", "false"⟩ = true
      ∧ assignLine wreg ⟨"verbose", 1, "Verbose output", "false"⟩
          ∈ renderLines "myapp" wreg []
      ∧ isCanonical wreg.flags ⟨"v", 1, "Verbose output", "false"⟩ = false
      ∧ assignLine wreg ⟨"v", 1, "Verbose output", "false"⟩
          ∉ renderLines "myapp" wreg [])
    ∧ (isCanonical wregRune.flags ⟨"abc", 0, "Usage", "x"⟩ = true
      ∧ isCanonical wregRune.flags ⟨"éé", 0, "Usage", "x"⟩ = false) := by
  have h1 := @dedup_longest "myapp" wreg ⟨"verbose", 1, "Verbose output", "false"⟩
    (by decide) (by decide) (by decide) (by decide)
  have h2 := @dedup_longest "myapp" wregRune ⟨"abc", 0, "Usage", "x"⟩
    (by decide) (by decide) (by decide) (by decide)
  have ha := h1.2.2 ⟨"v", 1, "Verbose output", "false"⟩ (by decide) rfl (by decide)
  have hb := h2.2.2 ⟨"éé", 0, "Usage", "x"⟩ (by decide) rfl (by decide)
  exact ⟨⟨h1.1, h1.2.1, ha.1, ha.2⟩, ⟨h2.1, hb.1⟩⟩

theorem find?_obs_overwrite {m : List (String × String)} {k v : String}
    (hany : m.any (fun p => p.1 == k) = true) :
    (m.map (fun p => if p.1 == k then (k, v) else p)).find? (fun p => p.1 == k)
      = some (k, v) := by
  induction m with
  | nil => cases hany
  | cons p m ih =>
    rw [List.map_cons]
    by_cases hpk : (p.1 == k) = true
    · rw [if_pos hpk]
      exact List.find?_cons_of_pos (p := fun q : String × String => q.1 == k) _ (by simp)
    · rw [if_neg hpk, List.find?_cons_of_neg (p := fun q : String × String => q.1 == k) _ hpk]
      rw [List.any_cons] at hany
      have : m.any (fun p => p.1 == k) = true := by
        cases hx : m.any (fun p => p.1 == k) with
        | true => rfl
        | false =>
          rw [hx] at hany
          rw [Bool.or_false] at hany
          exact absurd hany hpk
      exact ih this

theorem find?_obs_other {m : List (String × String)} {k v k' : String}
    (hne : k' ≠ k) :
    (m.map (fun p => if p.1 == k then (k, v) else p)).find? (fun p => p.1 == k')
      = m.find? (fun p => p.1 == k') := by
  induction m with
  | nil => rfl
  | cons p m ih =>
    rw [List.map_cons]
    by_cases hpk : (p.1 == k) = true
    · have hp : p.1 = k := by simpa using hpk
      have h1 : ¬(((k, v) : String × String).1 == k') = true := by
        simpa using fun he => hne he.symm
      have h2 : ¬(p.1 == k') = true := by
        rw [hp]
        simpa using fun he => hne he.symm
      rw [if_pos hpk, List.find?_cons_of_neg (p := fun q : String × String => q.1 == k') _ h1,
        List.find?_cons_of_neg (p := fun q : String × String => q.1 == k') _ h2]
      exact ih
    · rw [if_neg hpk]
      by_cases hpi : (p.1 == k') = true
      · rw [List.find?_cons_of_pos (p := fun q : String × String => q.1 == k') _ hpi,
          List.find?_cons_of_pos (p := fun q : String × String => q.1 == k') _ hpi]
      · rw [List.find?_cons_of_neg (p := fun q : String × String => q.1 == k') _ hpi,
          List.find?_cons_of_neg (p := fun q : String × String => q.1 == k') _ hpi]
        exact ih

theorem obsInsert_lookup (m : List (String × String)) (k v : String) :
    (obsInsert m k v).find? (fun p => p.1 == k) = some (k, v) := by
  unfold obsInsert
  split
  · next hany => exact find?_obs_overwrite hany
  · next hany =>
    have hnone : m.find? (fun p => p.1 == k) = none := by
      rw [List.find?_eq_none]
      intro x hx
      intro hpx
      exact hany (List.any_of_mem hx hpx)
    rw [List.find?_append, hnone]
    simp

theorem obsInsert_other (m : List (String × String)) (k v k' : String)
    (hne : k' ≠ k) :
    (obsInsert m k v).find? (fun p => p.1 == k')
      = m.find? (fun p => p.1 == k') := by
  unfold obsInsert
  split
  · exact find?_obs_other hne
  · rw [List.find?_append]
    have h1 : List.find? (fun p => p.1 == k') [(k, v)] = none := by
      simp
      exact fun he => hne he.symm
    rw [h1, Option.or_none]

theorem finishParse_warned (reg1 : Registry) (w : World) (fileNow : String)
    (warned : Option String) (wrote : Bool) :
    (finishParse reg1 w fileNow warned wrote).warned = warned := by
  unfold finishParse
  cases flagParse reg1 w.args <;> rfl

theorem parse_warning {app : String} {w : World} {reg : Registry} {p : String}
    (hparsed : reg.parsed = false)
    (hpath : getConfigPath app w.env w.userHome = .ok p)
    (hopen : w.openFails = false) :
    (Parse app w reg).warned
      = (if (parseConfig reg (splitLines w.file)).2.isEmpty then none else some p) := by
  unfold Parse
  rw [hparsed, hpath]
  simp only [Bool.false_eq_true, if_false]
  rw [hopen]
  simp only [Bool.false_eq_true, if_false]
  by_cases heq : w.file = unlines (renderLines app
      (parseConfig reg (splitLines w.file)).1 (parseConfig reg (splitLines w.file)).2)
  · rw [if_pos heq, finishParse_warned]
  · rw [if_neg heq]
    by_cases hs : w.seekFails = true
    · rw [if_pos hs]
    · rw [if_neg hs]
      by_cases ht : w.truncateFails = true
      · rw [if_pos ht]
      · rw [if_neg ht]
        by_cases hw : w.writeFails = true
        · rw [if_pos hw]
        · rw [if_neg hw, finishParse_warned]

/-- C4: a parsed `key<sep>value` line whose pair fails to apply (unknown key
or rejected value) is recorded as an obsolete entry, overwriting any prior
entry with the same key while entries under other keys are unaffected; the
parse is a total fold that simply continues with the next line; every
recorded pair is rendered verbatim as a `key=value` line in the regenerated
file's trailing deprecated section; and the update warning naming the
resolved config path is emitted exactly when the obsolete set is non-empty. -/
theorem obsolete_handling :
    (∀ (st : Registry × List (String × String)) (k v : String) (sep : Char),
        isSep sep = true → cleanKey k = true → cleanVal v = true →
        flagSet st.1 k v = none →
          processLine st ⟨k.data ++ sep :: v.data⟩ = (st.1, obsInsert st.2 k v))
      ∧ (∀ (m : List (String × String)) (k v : String),
          (obsInsert m k v).find? (fun p => p.1 == k) = some (k, v))
      ∧ (∀ (m : List (String × String)) (k v k' : String), k' ≠ k →
          (obsInsert m k v).find? (fun p => p.1 == k')
            = m.find? (fun p => p.1 == k'))
      ∧ (∀ (ls : List String) (st : Registry × List (String × String)) (l : String),
          (l :: ls).foldl processLine st = ls.foldl processLine (processLine st l))
      ∧ (∀ (app : String) (reg : Registry) (obs : List (String × String)) (k v : String),
          (k, v) ∈ obs → (k ++ "=" ++ v) ∈ renderLines app reg obs)
      ∧ (∀ (app : String) (w : World) (reg : Registry) (p : String),
          reg.parsed = false → getConfigPath app w.env w.userHome = .ok p →
          w.openFails = false →
          (Parse app w reg).warned
            = (if (parseConfig reg (splitLines w.file)).2.isEmpty then none
               else some p)) := by
  refine ⟨?_, obsInsert_lookup, fun m k v k' h => obsInsert_other m k v k' h,
    fun _ _ _ => rfl, ?_, fun _ _ _ _ h1 h2 h3 => parse_warning h1 h2 h3⟩
  · intro st k v sep hsep hk hv hfail
    rw [processLine_assign hsep hk hv, hfail]
  · intro app reg obs k v hmem
    unfold renderLines
    apply List.mem_append_right
    unfold obsLines
    have hne : obs.isEmpty = false := by
      cases obs with
      | nil => cases hmem
      | cons q obs => rfl
    rw [hne]
    simp only [Bool.false_eq_true, if_false]
    apply List.mem_append_right
    exact List.mem_map_of_mem (fun p => p.1 ++ "=" ++ p.2) hmem

/-- Witness for C4: a failing `old-flag=42` pair is recorded, overwriting the
prior entry under the same key and leaving another key's entry alone; the
line `old-flag=42` is rendered in the deprecated section; `Parse` still
succeeds on such a file and emits the warning naming the resolved path. -/
theorem obsolete_handling_witness :
    processLine (wreg, [("old-flag", "1"), ("keep", "0")])
        ⟨("old-flag" : String).data ++ '=' :: ("42" : String).data⟩
      = (wreg, [("old-flag", "42"), ("keep", "0")])
      ∧ ("old-flag" ++ "=" ++ "42") ∈ renderLines "myapp" wreg [("old-flag", "42")]
      ∧ (Parse "myapp" wworldObs wreg).warned = some "/tmp/conf"
      ∧ (Parse "myapp" wworldObs wreg).err = none := by
  refine ⟨?_, ?_, ?_, by decide⟩
  · rw [obsolete_handling.1 (wreg, [("old-flag", "1"), ("keep", "0")]) "old-flag" "42" '='
      (by decide) (by decide) (by decide) rfl]
    rfl
  · exact obsolete_handling.2.2.2.2.1 "myapp" wreg [("old-flag", "42")]
      "old-flag" "42" (by decide)
  · rw [obsolete_handling.2.2.2.2.2 "myapp" wworldObs wreg "/tmp/conf" rfl rfl rfl]
    decide

/-- Counterexample for C8 at the concrete `host` flag: the code emits a
three-line block whose single comment line carries the usage text and the
default value together (`# Host address (default )`); there is no separate
default-value comment line, so the claimed four-line blank/usage/default/
assignment structure does not hold. -/
theorem renderBlock_counterexample :
    blockLines wreg ⟨"host", 0, "Host address", ""⟩
        = ["", "# Host address (default )", "host=localhost"]
      ∧ blockLines wreg ⟨"host", 0, "Host address", ""⟩
          ≠ specBlockLines wreg ⟨"host", 0, "Host address", ""⟩
      ∧ ¬∃ l1 l2 l3 l4 : String,
          blockLines wreg ⟨"host", 0, "Host address", ""⟩ = [l1, l2, l3, l4] := by
  refine ⟨by decide, by decide, ?_⟩
  rintro ⟨l1, l2, l3, l4, h⟩
  have hl := congrArg List.length h
  have h3 : (blockLines wreg ⟨"host", 0, "Host address", ""⟩).length = 3 := rfl
  rw [h3] at hl
  simp at hl

/-- C8 amended: for each canonical flag, in the registry's enumeration order,
the renderer emits a blank line, one comment line containing the usage text
(with embedded `\n    \t` continuation breaks rewritten to `\n# `) followed by
` (default <default>)` on the same line, then the `name=value` line; the whole
output is the header, these three-line blocks in registry order, and the
optional trailing deprecated section. -/
theorem renderBlock_amended (app : String) (reg : Registry)
    (obs : List (String × String)) :
    renderLines app reg obs
      = headerLines app
        ++ reg.flags.foldr (fun f acc =>
            (if isCanonical reg.flags f
             then ["",
                   "# " ++ (⟨rewriteUsage (unquotedUsage f).data⟩ : String)
                     ++ " (default " ++ f.defValue ++ ")",
                   assignLine reg f]
             else []) ++ acc) []
        ++ obsLines obs
      ∧ ∀ f ∈ reg.flags, isCanonical reg.flags f = true →
          ∃ pre post, renderLines app reg obs
            = pre ++ ("" :: usageLine f :: assignLine reg f :: post) := by
  constructor
  · rfl
  · intro f hf hcan
    have hsplit : ∀ fl : List Flagg, f ∈ fl →
        ∃ pre post, fl.foldr (fun f acc =>
            (if isCanonical reg.flags f then blockLines reg f else []) ++ acc) []
          = pre ++ ("" :: usageLine f :: assignLine reg f :: post) := by
      intro fl
      induction fl with
      | nil => intro hx; cases hx
      | cons g fl ih =>
        intro hx
        rw [List.foldr_cons]
        rcases List.mem_cons.mp hx with he | hm
        · subst he
          rw [if_pos hcan]
          exact ⟨[], _, rfl⟩
        · obtain ⟨pre, post, hpp⟩ := ih hm
          refine ⟨(if isCanonical reg.flags g then blockLines reg g else []) ++ pre,
            post, ?_⟩
          rw [hpp, List.append_assoc]
    obtain ⟨pre, post, hpp⟩ := hsplit reg.flags hf
    refine ⟨headerLines app ++ pre, post ++ obsLines obs, ?_⟩
    show headerLines app ++ flagLines reg ++ obsLines obs = _
    unfold flagLines
    rw [hpp]
    simp [List.append_assoc]

/-- Witness for C8's amended claim: the `verbose` flag's block appears inside
the rendered sample output as blank line, combined usage/default comment
line, and assignment line. -/
theorem renderBlock_amended_witness :
    ∃ pre post, renderLines "myapp" wreg []
      = pre ++ ("" :: usageLine ⟨"verbose", 1, "Verbose output", "false"⟩
          :: assignLine wreg ⟨"verbose", 1, "Verbose output", "false"⟩ :: post) :=
  (renderBlock_amended "myapp" wreg []).2
    ⟨"verbose", 1, "Verbose output", "false"⟩ (by decide) (by decide)

end Confy
